import Mathlib

/-!
Shallow embedding of the ACL resolution engine of lfgw (`cmd/lfgw/acl.go`):
the pattern-element parser (`toSlice`), the ACL compiler (`PrepareACL`),
the registry loader (`loadACL`) and the role resolver (`getACL`),
together with theorems settling the specification claims.

Go strings are modelled as `List Char`; functions returning `(T, error)`
are modelled as values of the explicit sum type `Res`.
-/

namespace Lfgw

/-- Go strings, modelled as lists of characters. -/
abbrev Str := List Char

/-- Result of a Go function returning `(α, error)`: either a value or an
error message string. -/
inductive Res (α : Type) where
  | ok (val : α)
  | err (msg : Str)
deriving DecidableEq, Repr

/-- Character-membership in Go's `unicode.IsSpace` (the Unicode
White_Space property: 0x09..0x0D, 0x20, 0x85, 0xA0, 0x1680,
0x2000..0x200A, 0x2028, 0x2029, 0x202F, 0x205F, 0x3000). -/
def isSpaceChar (c : Char) : Bool :=
  let n := c.toNat
  (0x09 ≤ n && n ≤ 0x0D) || n == 0x20 || n == 0x85 || n == 0xA0 ||
  n == 0x1680 || (0x2000 ≤ n && n ≤ 0x200A) || n == 0x2028 ||
  n == 0x2029 || n == 0x202F || n == 0x205F || n == 0x3000

/-- Go `strings.Split(s, sep)` for a one-character separator: splits around
every occurrence of `sep`; the result is never empty. -/
def split (sep : Char) : Str → List Str
  | [] => [[]]
  | c :: cs =>
    match split sep cs with
    | [] => [[c]]
    | p :: ps => if c = sep then [] :: p :: ps else (c :: p) :: ps

/-- Go `strings.TrimLeft(s, string(c))`: drop every leading occurrence of
`c`. -/
def trimLeftChar (c : Char) (s : Str) : Str := s.dropWhile (· = c)

/-- Go `strings.TrimRight(s, string(c))`: drop every trailing occurrence of
`c`. -/
def trimRightChar (c : Char) (s : Str) : Str :=
  (s.reverse.dropWhile (· = c)).reverse

/-- Go `strings.TrimSpace`: drop leading and trailing white space. -/
def trimSpace (s : Str) : Str :=
  ((s.dropWhile isSpaceChar).reverse.dropWhile isSpaceChar).reverse

/-- Go `strings.Join(xs, sep)`. -/
def joinSep (sep : Str) : List Str → Str
  | [] => []
  | [x] => x
  | x :: xs => x ++ sep ++ joinSep sep xs

/-- The separator `", "` used by `rolesToRawACL` and `PrepareACL`. -/
def commaSpace : Str := [',', ' ']

/-- The full-access pattern element `".*"`. -/
def wildcardStr : Str := ['.', '*']

/-- The fixed label name `"namespace"` used by every produced filter. -/
def namespaceLabel : Str := String.toList "namespace"

/-- Go `fmt` `%q` rendering of a string, modelled for strings whose
characters need no escaping (all strings this development evaluates). -/
def goQuote (s : Str) : Str := '"' :: s ++ ['"']

/-- Error text of `toSlice` for an element with inner white space:
`line should not contain spaces within individual elements (%q)`. -/
def spacesErrMsg (str : Str) : Str :=
  String.toList "line should not contain spaces within individual elements (" ++
    goQuote str ++ [')']

/-- Error text of `toSlice` for a line without usable elements:
`line has to contain at least one valid element (%q)`. -/
def emptyErrMsg (str : Str) : Str :=
  String.toList "line has to contain at least one valid element (" ++
    goQuote str ++ [')']

/-- Error text of `PrepareACL` when the composed value is not a valid
regular expression: `%s in %q (converted from %q)`; the leading `%s`
(the Go `regexp` package's own message) is modelled by a fixed phrase. -/
def regexErrMsg (value raw : Str) : Str :=
  String.toList "error parsing regexp in " ++ goQuote value ++
    String.toList " (converted from " ++ goQuote raw ++ [')']

/-- Error text of `rolesToRawACL` for a role whose stored raw ACL is empty:
`%s role contains empty rawACL`. -/
def emptyRoleErrMsg (role : Str) : Str :=
  role ++ String.toList " role contains empty rawACL"

/-- Error text of `rolesToRawACL` when the joined raw ACL is empty. -/
def emptyConstructedErrMsg : Str := String.toList "constructed empty rawACL"

/-- Error text of `getACL` when no usable role remains. -/
def noMatchingRolesErrMsg : Str := String.toList "no matching roles found"

/-- The `metricsql.LabelFilter` struct as used by the code. -/
structure LabelFilter where
  Label : Str
  Value : Str
  IsRegexp : Bool
  IsNegative : Bool
deriving DecidableEq, Repr

/-- The `ACL` struct: a role definition. -/
structure ACL where
  Fullaccess : Bool
  Filter : LabelFilter
  RawACL : Str
deriving DecidableEq, Repr

/-- One pass of the loop body of `ACL.toSlice`: trim each piece, reject a
piece with inner white space (reporting the whole original line), drop
pieces that are empty after trimming. -/
def checkPieces (orig : Str) : List Str → Res (List Str)
  | [] => .ok []
  | p :: ps =>
    let s := trimSpace p
    if s.any isSpaceChar then .err (spacesErrMsg orig)
    else
      match checkPieces orig ps with
      | .err e => .err e
      | .ok rest => .ok (if s = [] then rest else s :: rest)

/-- `ACL.toSlice`: split a raw rule on commas into trimmed, non-empty,
white-space-free elements; reject the line if no element remains. -/
def toSlice (str : Str) : Res (List Str) :=
  match checkPieces str (split ',' str) with
  | .err e => .err e
  | .ok buffer => if buffer = [] then .err (emptyErrMsg str) else .ok buffer

/-- The regex metacharacters tested by `PrepareACL`:
`.+*?^$()[]\x7b\x7d|\` (Go `strings.ContainsAny`). -/
def metaChars : Str :=
  ['.', '+', '*', '?', '^', '$', '(', ')', '[', ']', '\x7b', '\x7d', '|', '\\']

/-- `strings.ContainsAny(s, metaChars)`. -/
def hasMeta (s : Str) : Bool := s.any (fun c => metaChars.contains c)

/-- The anchor trimming of `PrepareACL` on a single regexp element:
`TrimLeft "^"`, then `TrimLeft "("`, then `TrimRight "$"`, then
`TrimRight ")"`, in that order. -/
def stripAnchors (s : Str) : Str :=
  trimRightChar ')' (trimRightChar '$' (trimLeftChar '(' (trimLeftChar '^' s)))

/-- Modelled from the spec: success of Go's `regexp.Compile` (the `regexp`
package is outside the repository source). Approximated as structural
validity: escapes are complete, character classes are closed, and group
parentheses balance. `inClass` tells whether scanning is inside `[...]`,
`depth` counts open groups. -/
def reScan (inClass : Bool) (depth : Nat) : Str → Bool
  | [] => !inClass && depth == 0
  | '\\' :: rest =>
    match rest with
    | [] => false
    | _ :: r2 => reScan inClass depth r2
  | c :: rest =>
    if inClass then
      if c = ']' then reScan false depth rest else reScan true depth rest
    else if c = '[' then reScan true depth rest
    else if c = '(' then reScan false (depth + 1) rest
    else if c = ')' then
      match depth with
      | 0 => false
      | d + 1 => reScan false d rest
    else reScan inClass depth rest

/-- Modelled from the spec: `regexp.Compile(s)` succeeds. -/
def regexValid (s : Str) : Bool := reScan false 0 s

/-- `ACL.getFullaccessACL`: the canonical full-access ACL. -/
def getFullaccessACL : ACL :=
  { Fullaccess := true
    Filter := { Label := namespaceLabel, Value := wildcardStr,
                IsRegexp := true, IsNegative := false }
    RawACL := wildcardStr }

/-- `ACL.PrepareACL`: compile a raw rule into an ACL. A `.*` element
anywhere yields the canonical full-access ACL at once; a single element is
an exact match unless it contains a metacharacter, in which case anchors
are trimmed and it becomes a regexp; several elements are `|`-joined into
a regexp without anchor trimming; a regexp value must compile. -/
def PrepareACL (rawACL : Str) : Res ACL :=
  match toSlice rawACL with
  | .err e => .err e
  | .ok buffer =>
    if wildcardStr ∈ buffer then .ok getFullaccessACL
    else
      match buffer with
      | [b] =>
        if hasMeta b then
          let b2 := stripAnchors b
          if regexValid b2 then
            .ok { Fullaccess := false
                  Filter := { Label := namespaceLabel, Value := b2,
                              IsRegexp := true, IsNegative := false }
                  RawACL := b2 }
          else .err (regexErrMsg b2 rawACL)
        else
          .ok { Fullaccess := false
                Filter := { Label := namespaceLabel, Value := b,
                            IsRegexp := false, IsNegative := false }
                RawACL := b }
      | _ =>
        let v := joinSep ['|'] buffer
        if regexValid v then
          .ok { Fullaccess := false
                Filter := { Label := namespaceLabel, Value := v,
                            IsRegexp := true, IsNegative := false }
                RawACL := joinSep commaSpace buffer }
        else .err (regexErrMsg v rawACL)

/-- `ACLMap`: the registry, a mapping from role name to ACL (modelled as an
association list; Go map lookup is `findACL`). -/
abbrev ACLMap : Type := List (Str × ACL)

/-- Go map indexing `a[role]` with its `exists` flag. -/
def findACL : ACLMap → Str → Option ACL
  | [], _ => none
  | (k, v) :: rest, r => if k = r then some v else findACL rest r

/-- The loop of `ACLMap.rolesToRawACL`: each known role contributes its
stored raw ACL (which must be non-empty), each unknown role contributes
its own name. -/
def collectRawACLs (a : ACLMap) : List Str → Res (List Str)
  | [] => .ok []
  | role :: rest =>
    match findACL a role with
    | some acl =>
      if acl.RawACL = [] then .err (emptyRoleErrMsg role)
      else
        match collectRawACLs a rest with
        | .err e => .err e
        | .ok xs => .ok (acl.RawACL :: xs)
    | none =>
      match collectRawACLs a rest with
      | .err e => .err e
      | .ok xs => .ok (role :: xs)

/-- `ACLMap.rolesToRawACL`: the `", "`-join of the roles' contributions,
rejected when empty. -/
def rolesToRawACL (a : ACLMap) (roles : List Str) : Res Str :=
  match collectRawACLs a roles with
  | .err e => .err e
  | .ok rawACLs =>
    let raw := joinSep commaSpace rawACLs
    if raw = [] then .err emptyConstructedErrMsg else .ok raw

/-- The first loop of `ACLMap.getACL`: scan the claim roles in order; a
known full-access role returns its ACL at once (`Sum.inl`); otherwise the
roles are partitioned, in order, into known and unknown (`Sum.inr`). -/
def scanRoles (a : ACLMap) : List Str → Sum ACL (List Str × List Str)
  | [] => .inr ([], [])
  | role :: rest =>
    match findACL a role with
    | some acl =>
      if acl.Fullaccess then .inl acl
      else
        match scanRoles a rest with
        | .inl acl2 => .inl acl2
        | .inr (ks, us) => .inr (role :: ks, us)
    | none =>
      match scanRoles a rest with
      | .inl acl2 => .inl acl2
      | .inr (ks, us) => .inr (ks, role :: us)

/-- `ACLMap.getACL`: resolve a list of claim roles against the registry.
Unknown roles are appended only when assumed roles are enabled; an empty
working list is an error; a single known role returns its stored ACL;
otherwise the roles' contributions are joined and recompiled. -/
def getACL (a : ACLMap) (oidcRoles : List Str) (assumedRolesEnabled : Bool) :
    Res ACL :=
  match scanRoles a oidcRoles with
  | .inl acl => .ok acl
  | .inr (knownRoles, assumedRoles) =>
    let roles := if assumedRolesEnabled then knownRoles ++ assumedRoles
                 else knownRoles
    if roles = [] then .err noMatchingRolesErrMsg
    else
      match (match roles with | [r] => findACL a r | _ => none) with
      | some acl => .ok acl
      | none =>
        match rolesToRawACL a roles with
        | .err e => .err e
        | .ok raw =>
          match PrepareACL raw with
          | .err e => .err e
          | .ok acl => .ok acl

/-- `application.loadACL`, after the file has been read and parsed into a
role → raw-rule mapping (file IO and YAML are outside the core): compile
every entry; on the first failure return the empty registry together with
the compile error; on success return the full registry and no error. -/
def loadACL : List (Str × Str) → ACLMap × Option Str
  | [] => ([], none)
  | (role, raw) :: rest =>
    match PrepareACL raw with
    | .err e => ([], some e)
    | .ok acl =>
      match loadACL rest with
      | (_, some e) => ([], some e)
      | (m, none) => ((role, acl) :: m, none)

/-- The working role list of `getACL` after partitioning and the
assumed-roles policy: known roles in order, then (only when assumed roles
are enabled) the unknown roles in order. -/
def workingRoles (a : ACLMap) (l : List Str) (enabled : Bool) : List Str :=
  l.filter (fun r => (findACL a r).isSome) ++
    (if enabled then l.filter (fun r => (findACL a r).isNone) else [])

/-- Removal of duplicate role names, keeping the first occurrence of each
name (`seen` holds the names already kept). -/
def dedupRoles (seen : List Str) : List Str → List Str
  | [] => []
  | r :: rest =>
    if r ∈ seen then dedupRoles seen rest
    else r :: dedupRoles (r :: seen) rest

/-- Conversion of a Lean string literal to the character-list model. -/
def strL (s : String) : Str := s.toList

/-- Whether a `Res` value is a success. -/
def isOkRes {α : Type} : Res α → Bool
  | .ok _ => true
  | .err _ => false

/-- Whether a resolution outcome is a successful full-access ACL. -/
def fullaccessOutcome : Res ACL → Bool
  | .ok acl => acl.Fullaccess
  | .err _ => false

/-- Go `strings.Contains`: `needle` occurs inside `hay`. -/
def containsSub (needle hay : Str) : Bool :=
  hay.tails.any (fun t => needle.isPrefixOf t)

/-- A one-role registry mapping role `a` to the compiled ACL of `foo`. -/
def regA : ACLMap :=
  [(strL "a", ⟨false, ⟨strL "namespace", strL "foo", false, false⟩, strL "foo"⟩)]

/-- A one-role registry mapping role `admin` to the full-access ACL. -/
def regAdm : ACLMap := [(strL "admin", getFullaccessACL)]

/-! ### Helper lemmas on the string primitives -/

theorem split_ne_nil (sep : Char) (s : Str) : split sep s ≠ [] := by
  cases s with
  | nil => simp [split]
  | cons c cs =>
    simp only [split]
    cases h : split sep cs with
    | nil => simp
    | cons p ps =>
      by_cases hc : c = sep <;> simp [hc]

theorem mem_split_not_sep {sep : Char} {s : Str} {p : Str}
    (hp : p ∈ split sep s) : sep ∉ p := by
  induction s generalizing p with
  | nil =>
    have : p = [] := by simpa [split] using hp
    subst this; simp
  | cons c cs ih =>
    simp only [split] at hp
    cases h : split sep cs with
    | nil => exact absurd h (split_ne_nil sep cs)
    | cons q qs =>
      rw [h] at hp
      dsimp only at hp
      have hq : sep ∉ q := ih (h ▸ List.mem_cons_self q qs)
      have hqs : ∀ x ∈ qs, sep ∉ x := fun x hx =>
        ih (h ▸ List.mem_cons_of_mem q hx)
      by_cases hc : c = sep
      · rw [if_pos hc] at hp
        rcases List.mem_cons.mp hp with h1 | h1
        · subst h1; simp
        · rcases List.mem_cons.mp h1 with h2 | h2
          · exact h2 ▸ hq
          · exact hqs p h2
      · rw [if_neg hc] at hp
        rcases List.mem_cons.mp hp with h1 | h1
        · subst h1
          intro hmem
          rcases List.mem_cons.mp hmem with h2 | h2
          · exact hc h2.symm
          · exact hq h2
        · exact hqs p h1

theorem split_no_sep {sep : Char} {s : Str} (h : sep ∉ s) :
    split sep s = [s] := by
  induction s with
  | nil => simp [split]
  | cons c cs ih =>
    have hc : c ≠ sep := fun hc => h (hc ▸ List.mem_cons_self c cs)
    have hcs : sep ∉ cs := fun hm => h (List.mem_cons_of_mem c hm)
    simp only [split, ih hcs]
    simp [hc]

theorem split_append_sep {sep : Char} {xs ys : Str} (h : sep ∉ xs) :
    split sep (xs ++ sep :: ys) = xs :: split sep ys := by
  induction xs with
  | nil =>
    simp only [List.nil_append, split]
    cases hy : split sep ys with
    | nil => exact absurd hy (split_ne_nil sep ys)
    | cons p ps => simp
  | cons c cs ih =>
    have hc : c ≠ sep := fun hc => h (hc ▸ List.mem_cons_self c cs)
    have hcs : sep ∉ cs := fun hm => h (List.mem_cons_of_mem c hm)
    simp only [List.cons_append, split, List.append_eq]
    rw [ih hcs]
    simp [hc]

theorem dropWhile_of_any_eq_false {p : Char → Bool} {s : Str}
    (h : s.any p = false) : s.dropWhile p = s := by
  cases s with
  | nil => rfl
  | cons c cs =>
    simp only [List.any_cons, Bool.or_eq_false_iff] at h
    simp [List.dropWhile, h.1]

theorem trimSpace_of_any_eq_false {s : Str} (h : s.any isSpaceChar = false) :
    trimSpace s = s := by
  unfold trimSpace
  rw [dropWhile_of_any_eq_false h]
  rw [dropWhile_of_any_eq_false (by rw [List.any_reverse]; exact h)]
  exact List.reverse_reverse s

theorem trimSpace_cons_space {c : Char} {s : Str} (hc : isSpaceChar c = true) :
    trimSpace (c :: s) = trimSpace s := by
  unfold trimSpace
  simp [List.dropWhile, hc]

theorem mem_of_mem_trimSpace {x : Char} {s : Str} (h : x ∈ trimSpace s) :
    x ∈ s := by
  unfold trimSpace at h
  rw [List.mem_reverse] at h
  have h2 := List.dropWhile_subset (l := (s.dropWhile isSpaceChar).reverse)
    isSpaceChar h
  rw [List.mem_reverse] at h2
  exact List.dropWhile_subset isSpaceChar h2

/-! ### Properties of `toSlice` -/

theorem checkPieces_ok_elem {orig : Str} {ps : List Str} {buf : List Str}
    (h : checkPieces orig ps = .ok buf) :
    ∀ b ∈ buf, b ≠ [] ∧ b.any isSpaceChar = false ∧ ∃ p ∈ ps, b = trimSpace p := by
  induction ps generalizing buf with
  | nil =>
    simp only [checkPieces, Res.ok.injEq] at h
    subst h; simp
  | cons p ps ih =>
    simp only [checkPieces] at h
    cases hsp : (trimSpace p).any isSpaceChar with
    | true => rw [hsp] at h; simp at h
    | false =>
      rw [hsp] at h
      simp only [Bool.false_eq_true, if_false] at h
      cases hc : checkPieces orig ps with
      | err e => rw [hc] at h; simp at h
      | ok rest =>
        rw [hc] at h
        simp only [Res.ok.injEq] at h
        subst h
        intro b hb
        by_cases hemp : trimSpace p = []
        · rw [if_pos hemp] at hb
          obtain ⟨h1, h2, q, hq, h3⟩ := ih hc b hb
          exact ⟨h1, h2, q, List.mem_cons_of_mem p hq, h3⟩
        · rw [if_neg hemp] at hb
          rcases List.mem_cons.mp hb with h1 | h1
          · exact ⟨h1 ▸ hemp, h1 ▸ hsp, p, List.mem_cons_self p ps, h1⟩
          · obtain ⟨h1, h2, q, hq, h3⟩ := ih hc b h1
            exact ⟨h1, h2, q, List.mem_cons_of_mem p hq, h3⟩

theorem toSlice_ok_elem {s : Str} {buf : List Str} (h : toSlice s = .ok buf) :
    ∀ b ∈ buf, b ≠ [] ∧ b.any isSpaceChar = false ∧ ',' ∉ b := by
  unfold toSlice at h
  cases hc : checkPieces s (split ',' s) with
  | err e => rw [hc] at h; simp at h
  | ok buffer =>
    rw [hc] at h
    dsimp only at h
    by_cases hemp : buffer = []
    · rw [if_pos hemp] at h; simp at h
    · rw [if_neg hemp] at h
      simp only [Res.ok.injEq] at h
      subst h
      intro b hb
      obtain ⟨h1, h2, p, hp, h3⟩ := checkPieces_ok_elem hc b hb
      refine ⟨h1, h2, fun hmem => ?_⟩
      exact mem_split_not_sep hp (mem_of_mem_trimSpace (h3 ▸ hmem))

theorem toSlice_ok_ne_nil {s : Str} {buf : List Str}
    (h : toSlice s = .ok buf) : buf ≠ [] := by
  unfold toSlice at h
  cases hc : checkPieces s (split ',' s) with
  | err e => rw [hc] at h; simp at h
  | ok buffer =>
    rw [hc] at h
    dsimp only at h
    by_cases hemp : buffer = []
    · rw [if_pos hemp] at h; simp at h
    · rw [if_neg hemp] at h
      simp only [Res.ok.injEq] at h
      exact h ▸ hemp

theorem joinSep_single (sep : Str) (x : Str) : joinSep sep [x] = x := rfl

theorem joinSep_cons_cons (sep : Str) (x y : Str) (ys : List Str) :
    joinSep sep (x :: y :: ys) = x ++ sep ++ joinSep sep (y :: ys) := rfl

theorem checkPieces_map_space {orig : Str} {bs : List Str}
    (hbs : ∀ b ∈ bs, b ≠ [] ∧ b.any isSpaceChar = false) :
    checkPieces orig (bs.map (fun b => ' ' :: b)) = .ok bs := by
  induction bs with
  | nil => rfl
  | cons b bs ih =>
    obtain ⟨hne, hsp⟩ := hbs b (List.mem_cons_self b bs)
    have htr : trimSpace (' ' :: b) = b := by
      rw [trimSpace_cons_space (by decide), trimSpace_of_any_eq_false hsp]
    simp only [List.map_cons, checkPieces, htr, hsp, Bool.false_eq_true,
      if_false, ih (fun x hx => hbs x (List.mem_cons_of_mem b hx))]
    rw [if_neg hne]

theorem split_joinSep {b : Str} {bs : List Str}
    (h : ∀ x ∈ b :: bs, ',' ∉ x) :
    split ',' (joinSep commaSpace (b :: bs)) = b :: bs.map (fun x => ' ' :: x) := by
  induction bs generalizing b with
  | nil =>
    rw [joinSep_single]
    exact split_no_sep (h b (List.mem_cons_self b []))
  | cons b2 bs ih =>
    rw [joinSep_cons_cons]
    have hb : ',' ∉ b := h b (List.mem_cons_self b (b2 :: bs))
    have hrest : ∀ x ∈ b2 :: bs, ',' ∉ x := fun x hx =>
      h x (List.mem_cons_of_mem b hx)
    have : b ++ commaSpace ++ joinSep commaSpace (b2 :: bs) =
        b ++ ',' :: ' ' :: joinSep commaSpace (b2 :: bs) := by
      simp [commaSpace, List.append_assoc]
    rw [this, split_append_sep hb]
    have hs := ih hrest
    simp only [split, hs]
    simp

theorem toSlice_joinSep (buf : List Str) (hne : buf ≠ [])
    (helem : ∀ b ∈ buf, b ≠ [] ∧ b.any isSpaceChar = false ∧ ',' ∉ b) :
    toSlice (joinSep commaSpace buf) = .ok buf := by
  cases buf with
  | nil => exact absurd rfl hne
  | cons b bs =>
    unfold toSlice
    rw [split_joinSep (fun x hx => (helem x hx).2.2)]
    obtain ⟨hbne, hbsp, _⟩ := helem b (List.mem_cons_self b bs)
    have htr : trimSpace b = b := trimSpace_of_any_eq_false hbsp
    simp only [checkPieces, htr, hbsp, Bool.false_eq_true, if_false,
      checkPieces_map_space (fun x hx =>
        ⟨(helem x (List.mem_cons_of_mem b hx)).1,
         (helem x (List.mem_cons_of_mem b hx)).2.1⟩)]
    rw [if_neg hbne]
    simp

/-! ### Properties of `PrepareACL` -/

theorem PrepareACL_ok_cases {s : Str} {acl : ACL} (h : PrepareACL s = .ok acl) :
    ∃ buffer, toSlice s = .ok buffer ∧
      ((wildcardStr ∈ buffer ∧ acl = getFullaccessACL) ∨
       (wildcardStr ∉ buffer ∧
        ((∃ b, buffer = [b] ∧ hasMeta b = false ∧
            acl = ⟨false, ⟨namespaceLabel, b, false, false⟩, b⟩) ∨
         (∃ b, buffer = [b] ∧ hasMeta b = true ∧
            regexValid (stripAnchors b) = true ∧
            acl = ⟨false, ⟨namespaceLabel, stripAnchors b, true, false⟩,
                   stripAnchors b⟩) ∨
         (∃ b1 b2 bs, buffer = b1 :: b2 :: bs ∧
            regexValid (joinSep ['|'] buffer) = true ∧
            acl = ⟨false, ⟨namespaceLabel, joinSep ['|'] buffer, true, false⟩,
                   joinSep commaSpace buffer⟩)))) := by
  unfold PrepareACL at h
  cases hts : toSlice s with
  | err e => rw [hts] at h; simp at h
  | ok buffer =>
    rw [hts] at h
    dsimp only at h
    refine ⟨buffer, rfl, ?_⟩
    by_cases hw : wildcardStr ∈ buffer
    · rw [if_pos hw] at h
      simp only [Res.ok.injEq] at h
      exact Or.inl ⟨hw, h.symm⟩
    · rw [if_neg hw] at h
      refine Or.inr ⟨hw, ?_⟩
      match buffer, h with
      | [], h =>
        exact absurd rfl (toSlice_ok_ne_nil hts)
      | [b], h =>
        dsimp only at h
        cases hm : hasMeta b with
        | false =>
          rw [hm] at h
          simp only [Bool.false_eq_true, if_false, Res.ok.injEq] at h
          exact Or.inl ⟨b, rfl, hm, h.symm⟩
        | true =>
          rw [hm] at h
          simp only [if_true] at h
          cases hv : regexValid (stripAnchors b) with
          | false => rw [hv] at h; simp at h
          | true =>
            rw [hv] at h
            simp only [if_true, Res.ok.injEq] at h
            exact Or.inr (Or.inl ⟨b, rfl, hm, hv, h.symm⟩)
      | b1 :: b2 :: bs, h =>
        dsimp only at h
        cases hv : regexValid (joinSep ['|'] (b1 :: b2 :: bs)) with
        | false => rw [hv] at h; simp at h
        | true =>
          rw [hv] at h
          simp only [if_true, Res.ok.injEq] at h
          exact Or.inr (Or.inr ⟨b1, b2, bs, rfl, rfl, h.symm⟩)

theorem PrepareACL_single_noMeta {b : Str} (hne : b ≠ [])
    (hsp : b.any isSpaceChar = false) (hc : ',' ∉ b)
    (hm : hasMeta b = false) :
    PrepareACL b = .ok ⟨false, ⟨namespaceLabel, b, false, false⟩, b⟩ := by
  have hts : toSlice b = .ok [b] := by
    have := toSlice_joinSep [b] (by simp)
      (by intro x hx; rw [List.mem_singleton] at hx; subst hx
          exact ⟨hne, hsp, hc⟩)
    rwa [joinSep_single] at this
  have hw : wildcardStr ∉ [b] := by
    intro hmem
    rw [List.mem_singleton] at hmem
    rw [← hmem] at hm
    simp [hasMeta, metaChars, wildcardStr] at hm
  unfold PrepareACL
  rw [hts]
  dsimp only
  rw [if_neg hw]
  rw [hm]
  simp

theorem PrepareACL_single_meta {b : Str} (hne : b ≠ [])
    (hsp : b.any isSpaceChar = false) (hc : ',' ∉ b)
    (hm : hasMeta b = true) (hwb : b ≠ wildcardStr)
    (hv : regexValid (stripAnchors b) = true) (hst : stripAnchors b = b) :
    PrepareACL b = .ok ⟨false, ⟨namespaceLabel, b, true, false⟩, b⟩ := by
  have hts : toSlice b = .ok [b] := by
    have := toSlice_joinSep [b] (by simp)
      (by intro x hx; rw [List.mem_singleton] at hx; subst hx
          exact ⟨hne, hsp, hc⟩)
    rwa [joinSep_single] at this
  have hw : wildcardStr ∉ [b] := by
    intro hmem
    rw [List.mem_singleton] at hmem
    exact hwb hmem.symm
  unfold PrepareACL
  rw [hts]
  dsimp only
  rw [if_neg hw]
  rw [hm]
  have hv2 : regexValid b = true := hst ▸ hv
  simp only [if_true, hst, hv2]

theorem PrepareACL_multi {b1 b2 : Str} {bs : List Str}
    (helem : ∀ b ∈ b1 :: b2 :: bs,
      b ≠ [] ∧ b.any isSpaceChar = false ∧ ',' ∉ b)
    (hw : wildcardStr ∉ b1 :: b2 :: bs)
    (hv : regexValid (joinSep ['|'] (b1 :: b2 :: bs)) = true) :
    PrepareACL (joinSep commaSpace (b1 :: b2 :: bs)) =
      .ok ⟨false, ⟨namespaceLabel, joinSep ['|'] (b1 :: b2 :: bs), true, false⟩,
           joinSep commaSpace (b1 :: b2 :: bs)⟩ := by
  have hts : toSlice (joinSep commaSpace (b1 :: b2 :: bs)) =
      .ok (b1 :: b2 :: bs) := toSlice_joinSep _ (by simp) helem
  unfold PrepareACL
  rw [hts]
  dsimp only
  rw [if_neg hw]
  rw [hv]
  simp

/-! ### Properties of `scanRoles` and `getACL` -/

theorem scanRoles_no_fa {a : ACLMap} {l : List Str}
    (h : ∀ r acl, r ∈ l → findACL a r = some acl → acl.Fullaccess = false) :
    scanRoles a l = .inr (l.filter (fun r => (findACL a r).isSome),
                          l.filter (fun r => (findACL a r).isNone)) := by
  induction l with
  | nil => rfl
  | cons r rest ih =>
    have hrest : ∀ x acl, x ∈ rest → findACL a x = some acl →
        acl.Fullaccess = false :=
      fun x acl hx => h x acl (List.mem_cons_of_mem r hx)
    cases hf : findACL a r with
    | none =>
      simp only [scanRoles, hf]
      rw [ih hrest]
      simp [List.filter_cons, hf]
    | some acl =>
      have hfa : acl.Fullaccess = false := h r acl (List.mem_cons_self r rest) hf
      simp only [scanRoles, hf, hfa, Bool.false_eq_true, if_false]
      rw [ih hrest]
      simp [List.filter_cons, hf]

theorem scanRoles_fa {a : ACLMap} {l : List Str} {r : Str} {acl : ACL}
    (hr : r ∈ l) (hf : findACL a r = some acl) (hfa : acl.Fullaccess = true) :
    ∃ acl2, scanRoles a l = .inl acl2 ∧ acl2.Fullaccess = true := by
  induction l with
  | nil => cases hr
  | cons x rest ih =>
    cases hx : findACL a x with
    | some aclx =>
      cases hfax : aclx.Fullaccess with
      | true =>
        refine ⟨aclx, ?_, hfax⟩
        simp only [scanRoles, hx, hfax, if_true]
      | false =>
        have hr2 : r ∈ rest := by
          rcases List.mem_cons.mp hr with h1 | h1
          · subst h1
            rw [hf] at hx
            injection hx with h2
            subst h2
            rw [hfa] at hfax
            cases hfax
          · exact h1
        obtain ⟨acl2, hs, hfa2⟩ := ih hr2
        refine ⟨acl2, ?_, hfa2⟩
        simp only [scanRoles, hx, hfax, Bool.false_eq_true, if_false, hs]
    | none =>
      have hr2 : r ∈ rest := by
        rcases List.mem_cons.mp hr with h1 | h1
        · subst h1
          rw [hf] at hx
          cases hx
        · exact h1
      obtain ⟨acl2, hs, hfa2⟩ := ih hr2
      refine ⟨acl2, ?_, hfa2⟩
      simp only [scanRoles, hx, hs]

theorem scanRoles_dedup {a : ACLMap} {acl : ACL} {l : List Str} :
    ∀ seen : List Str,
    (∀ s acl2, s ∈ seen → findACL a s = some acl2 → acl2.Fullaccess = false) →
    scanRoles a l = .inl acl → scanRoles a (dedupRoles seen l) = .inl acl := by
  induction l with
  | nil =>
    intro seen _ h
    simp [scanRoles] at h
  | cons r rest ih =>
    intro seen hseen h
    simp only [dedupRoles]
    cases hf : findACL a r with
    | some aclr =>
      simp only [scanRoles, hf] at h
      cases hfa : aclr.Fullaccess with
      | true =>
        rw [hfa] at h
        simp only [if_true, Sum.inl.injEq] at h
        have hrs : r ∉ seen := by
          intro hmem
          have := hseen r aclr hmem hf
          rw [hfa] at this
          cases this
        subst h
        rw [if_neg hrs]
        simp only [scanRoles, hf, hfa, if_true]
      | false =>
        rw [hfa] at h
        simp only [Bool.false_eq_true, if_false] at h
        have hrest : scanRoles a rest = .inl acl := by
          cases hs : scanRoles a rest with
          | inl a2 =>
            rw [hs] at h
            simpa using h
          | inr p =>
            rw [hs] at h
            cases p
            simp at h
        by_cases hrs : r ∈ seen
        · rw [if_pos hrs]
          exact ih seen hseen hrest
        · rw [if_neg hrs]
          have hseen2 : ∀ s acl2, s ∈ r :: seen →
              findACL a s = some acl2 → acl2.Fullaccess = false := by
            intro s acl2 hs2 hf2
            rcases List.mem_cons.mp hs2 with h1 | h1
            · subst h1
              rw [hf] at hf2
              injection hf2 with h2
              subst h2
              exact hfa
            · exact hseen s acl2 h1 hf2
          have hrec := ih (r :: seen) hseen2 hrest
          simp only [scanRoles, hf, hfa, Bool.false_eq_true, if_false, hrec]
    | none =>
      simp only [scanRoles, hf] at h
      have hrest : scanRoles a rest = .inl acl := by
        cases hs : scanRoles a rest with
        | inl a2 =>
          rw [hs] at h
          simpa using h
        | inr p =>
          rw [hs] at h
          cases p
          simp at h
      by_cases hrs : r ∈ seen
      · rw [if_pos hrs]
        exact ih seen hseen hrest
      · rw [if_neg hrs]
        have hseen2 : ∀ s acl2, s ∈ r :: seen →
            findACL a s = some acl2 → acl2.Fullaccess = false := by
          intro s acl2 hs2 hf2
          rcases List.mem_cons.mp hs2 with h1 | h1
          · subst h1
            rw [hf] at hf2
            cases hf2
          · exact hseen s acl2 h1 hf2
        have hrec := ih (r :: seen) hseen2 hrest
        simp only [scanRoles, hf, hrec]

theorem scanRoles_filter_known (a : ACLMap) (l : List Str) :
    scanRoles a (l.filter (fun r => (findACL a r).isSome)) =
      (match scanRoles a l with
       | .inl acl => .inl acl
       | .inr (ks, _) => .inr (ks, [])) := by
  induction l with
  | nil => rfl
  | cons r rest ih =>
    cases hf : findACL a r with
    | none =>
      rw [List.filter_cons]
      simp only [hf, Option.isSome_none, Bool.false_eq_true, if_false]
      rw [ih]
      simp only [scanRoles, hf]
      cases hs : scanRoles a rest with
      | inl acl => simp
      | inr p => cases p; simp
    | some acl =>
      rw [List.filter_cons]
      simp only [hf, Option.isSome_some, if_true]
      simp only [scanRoles, hf]
      cases hfa : acl.Fullaccess with
      | true => simp
      | false =>
        simp only [Bool.false_eq_true, if_false]
        rw [ih]
        cases hs : scanRoles a rest with
        | inl acl2 => simp
        | inr p => cases p; simp

theorem getACL_filter_known (a : ACLMap) (l : List Str) :
    getACL a l false =
      getACL a (l.filter (fun r => (findACL a r).isSome)) false := by
  unfold getACL
  rw [scanRoles_filter_known]
  cases hs : scanRoles a l with
  | inl acl => rfl
  | inr p => cases p; rfl

/-! ### Properties of `loadACL` -/

theorem loadACL_none_iff (cfg : List (Str × Str)) :
    (loadACL cfg).2 = none ↔ ∀ rp ∈ cfg, isOkRes (PrepareACL rp.2) = true := by
  induction cfg with
  | nil => simp [loadACL]
  | cons rp rest ih =>
    obtain ⟨role, raw⟩ := rp
    cases hp : PrepareACL raw with
    | err e =>
      have hload : loadACL ((role, raw) :: rest) = ([], some e) := by
        simp [loadACL, hp]
      rw [hload]
      constructor
      · intro h
        cases h
      · intro h
        have hacl := h (role, raw) (List.mem_cons_self _ _)
        simp only at hacl
        rw [hp] at hacl
        simp [isOkRes] at hacl
    | ok acl =>
      cases hl : loadACL rest with
      | mk m oe =>
        cases oe with
        | none =>
          have hload : loadACL ((role, raw) :: rest) = ((role, acl) :: m, none) := by
            simp [loadACL, hp, hl]
          rw [hload]
          constructor
          · intro _ rp2 hrp2
            rcases List.mem_cons.mp hrp2 with h1 | h1
            · subst h1
              simp only
              rw [hp]
              rfl
            · exact (ih.mp (by rw [hl])) rp2 h1
          · intro _
            rfl
        | some e =>
          have hload : loadACL ((role, raw) :: rest) = ([], some e) := by
            simp [loadACL, hp, hl]
          rw [hload]
          constructor
          · intro h
            cases h
          · intro h
            have h2 := ih.mpr (fun rp2 hm => h rp2 (List.mem_cons_of_mem _ hm))
            rw [hl] at h2
            cases h2

theorem loadACL_err {cfg : List (Str × Str)} {e : Str}
    (h : (loadACL cfg).2 = some e) :
    (loadACL cfg).1 = [] ∧ ∃ rp ∈ cfg, PrepareACL rp.2 = .err e := by
  induction cfg with
  | nil => simp [loadACL] at h
  | cons rp rest ih =>
    obtain ⟨role, raw⟩ := rp
    cases hp : PrepareACL raw with
    | err e2 =>
      have hload : loadACL ((role, raw) :: rest) = ([], some e2) := by
        simp [loadACL, hp]
      rw [hload] at h
      simp only [Option.some.injEq] at h
      subst h
      rw [hload]
      exact ⟨rfl, (role, raw), List.mem_cons_self _ _, hp⟩
    | ok acl =>
      cases hl : loadACL rest with
      | mk m oe =>
        cases oe with
        | none =>
          have hload : loadACL ((role, raw) :: rest) = ((role, acl) :: m, none) := by
            simp [loadACL, hp, hl]
          rw [hload] at h
          simp at h
        | some e2 =>
          have hload : loadACL ((role, raw) :: rest) = ([], some e2) := by
            simp [loadACL, hp, hl]
          rw [hload] at h
          simp only [Option.some.injEq] at h
          subst h
          obtain ⟨_, rp2, hrp2, herr⟩ := ih (by rw [hl])
          rw [hload]
          exact ⟨rfl, rp2, List.mem_cons_of_mem _ hrp2, herr⟩

theorem loadACL_find {cfg : List (Str × Str)} {r p : Str} {acl : ACL}
    (hnd : (cfg.map Prod.fst).Nodup)
    (hnone : (loadACL cfg).2 = none)
    (hmem : (r, p) ∈ cfg) (hp : PrepareACL p = .ok acl) :
    findACL (loadACL cfg).1 r = some acl := by
  induction cfg with
  | nil => cases hmem
  | cons rp rest ih =>
    obtain ⟨role, raw⟩ := rp
    cases hpr : PrepareACL raw with
    | err e => simp [loadACL, hpr] at hnone
    | ok acl2 =>
      cases hl : loadACL rest with
      | mk m oe =>
        cases oe with
        | some e => simp [loadACL, hpr, hl] at hnone
        | none =>
          have hload : loadACL ((role, raw) :: rest) = ((role, acl2) :: m, none) := by
            simp [loadACL, hpr, hl]
          rw [hload]
          rw [List.map_cons, List.nodup_cons] at hnd
          rcases List.mem_cons.mp hmem with h1 | h1
          · have hr : r = role := congrArg Prod.fst h1
            have hraw : p = raw := congrArg Prod.snd h1
            subst hr
            subst hraw
            rw [hp] at hpr
            injection hpr with h2
            subst h2
            simp [findACL]
          · have hrr : role ≠ r := by
              intro heq
              subst heq
              have hm2 : role ∈ rest.map Prod.fst := by
                simpa using List.mem_map_of_mem Prod.fst h1
              exact hnd.1 hm2
            simp only [findACL]
            rw [if_neg hrr]
            have hres := ih hnd.2 (by rw [hl]) h1
            rw [hl] at hres
            exact hres

/-! ### Claim theorems -/

/-- C2, counterexample: compiling `^.*$` succeeds and yields an ACL whose
label filter is exactly the canonical full-access filter and whose rawACL
is `.*`, yet whose `Fullaccess` field is `false` — so full access does not
have exactly one representation of that filter/rawACL shape, refuting the
claimed equivalence. -/
theorem claim2_counterexample :
    PrepareACL (strL "^.*$") =
      .ok { Fullaccess := false
            Filter := { Label := strL "namespace", Value := strL ".*",
                        IsRegexp := true, IsNegative := false }
            RawACL := strL ".*" } ∧
    getFullaccessACL.Filter =
      { Label := strL "namespace", Value := strL ".*",
        IsRegexp := true, IsNegative := false } ∧
    getFullaccessACL.RawACL = strL ".*" ∧
    getFullaccessACL.Fullaccess = true := by decide

/-- C2, amended: only the forward direction holds — every successfully
compiled ACL with `Fullaccess = true` is the canonical full-access ACL
(filter `{namespace, .*, regexp, non-negative}` and rawACL `.*`); the
converse fails because a successful compilation (e.g. of `^.*$`) can
produce that filter/rawACL shape with `Fullaccess = false`. -/
theorem claim2_amended_full_access_canonical {s : Str} {acl : ACL}
    (h : PrepareACL s = .ok acl) (hfa : acl.Fullaccess = true) :
    acl = getFullaccessACL := by
  obtain ⟨buffer, _, hcase⟩ := PrepareACL_ok_cases h
  rcases hcase with ⟨_, rfl⟩ | ⟨_, hcase2⟩
  · rfl
  · exfalso
    rcases hcase2 with ⟨b, _, _, rfl⟩ | ⟨b, _, _, _, rfl⟩ |
      ⟨b1, b2, bs, _, _, rfl⟩ <;> simp at hfa

/-- C2, witness: the amended theorem applied to the compilation of `.*`. -/
theorem claim2_witness : (getFullaccessACL : ACL) = getFullaccessACL :=
  claim2_amended_full_access_canonical (s := strL ".*") (by decide) (by decide)

/-- C3, counterexample: in the multi-element pattern `^foo$, bar` the
element `^foo$` keeps its anchors: the compiled value is `^foo$|bar`, not
the anchor-stripped `foo|bar` the claim requires. -/
theorem claim3_counterexample :
    toSlice (strL "^foo$, bar") = .ok [strL "^foo$", strL "bar"] ∧
    PrepareACL (strL "^foo$, bar") =
      .ok { Fullaccess := false
            Filter := { Label := strL "namespace", Value := strL "^foo$|bar",
                        IsRegexp := true, IsNegative := false }
            RawACL := strL "^foo$, bar" } ∧
    joinSep ['|'] [stripAnchors (strL "^foo$"), stripAnchors (strL "bar")] =
      strL "foo|bar" ∧
    strL "^foo$|bar" ≠ strL "foo|bar" := by decide

/-- C3, amended: anchor stripping happens only in the single-element case.
For a successful regexp compilation without the absorbing element: if the
pattern parses to a single element, the value and rawACL are that element
anchor-stripped; if it parses to two or more elements, the value is the
`|`-join and the rawACL the `", "`-join of the elements exactly as parsed,
with no anchor stripping. -/
theorem claim3_amended_anchor_strip_single_only (s : Str)
    (buffer : List Str) {acl : ACL}
    (hts : toSlice s = .ok buffer) (hw : wildcardStr ∉ buffer)
    (h : PrepareACL s = .ok acl) (hre : acl.Filter.IsRegexp = true) :
    (∀ b, buffer = [b] →
        acl.Filter.Value = stripAnchors b ∧ acl.RawACL = stripAnchors b) ∧
    (2 ≤ buffer.length →
        acl.Filter.Value = joinSep ['|'] buffer ∧
        acl.RawACL = joinSep commaSpace buffer) := by
  obtain ⟨buffer2, hts2, hcase⟩ := PrepareACL_ok_cases h
  rw [hts] at hts2
  injection hts2 with h2
  subst h2
  rcases hcase with ⟨hw2, _⟩ | ⟨_, hcase2⟩
  · exact absurd hw2 hw
  · rcases hcase2 with ⟨b, hb, _, rfl⟩ | ⟨b, hb, _, _, rfl⟩ |
      ⟨b1, b2, bs, hb, _, rfl⟩
    · simp at hre
    · subst hb
      refine ⟨?_, ?_⟩
      · intro b2 hb2
        injection hb2 with h3
        subst h3
        exact ⟨rfl, rfl⟩
      · intro hlen
        simp at hlen
    · subst hb
      refine ⟨?_, ?_⟩
      · intro b0 hb0
        injection hb0 with _ h3
        cases h3
      · intro _
        exact ⟨rfl, rfl⟩

/-- C3, witness: the amended theorem applied to `min.*, stolon`. -/
theorem claim3_witness :
    ({ Fullaccess := false
       Filter := { Label := strL "namespace", Value := strL "min.*|stolon",
                   IsRegexp := true, IsNegative := false }
       RawACL := strL "min.*, stolon" } : ACL).Filter.Value =
      joinSep ['|'] [strL "min.*", strL "stolon"] ∧
    ({ Fullaccess := false
       Filter := { Label := strL "namespace", Value := strL "min.*|stolon",
                   IsRegexp := true, IsNegative := false }
       RawACL := strL "min.*, stolon" } : ACL).RawACL =
      joinSep commaSpace [strL "min.*", strL "stolon"] :=
  (claim3_amended_anchor_strip_single_only (strL "min.*, stolon")
    [strL "min.*", strL "stolon"] (by decide) (by decide)
    (by decide) (by decide)).2 (by decide)

/-- C4, counterexample: compiling `(foo)` strips the parentheses, producing
rawACL `foo` with a regexp filter; recompiling that rawACL yields an
exact-match (non-regexp) filter, so `compile (compile s).rawACL ≠ compile s`. -/
theorem claim4_counterexample :
    PrepareACL (strL "(foo)") =
      .ok { Fullaccess := false
            Filter := { Label := strL "namespace", Value := strL "foo",
                        IsRegexp := true, IsNegative := false }
            RawACL := strL "foo" } ∧
    PrepareACL (strL "foo") =
      .ok { Fullaccess := false
            Filter := { Label := strL "namespace", Value := strL "foo",
                        IsRegexp := false, IsNegative := false }
            RawACL := strL "foo" } ∧
    PrepareACL (strL "foo") ≠ PrepareACL (strL "(foo)") := by decide

/-- C4, amended: recompiling the rawACL of a successful compilation
reproduces the same ACL, provided the pattern does not parse to a single
metacharacter-bearing element that anchor stripping alters (in that case
the counterexample `(foo)` shows idempotence fails). -/
theorem claim4_amended_idempotent_unless_stripped (s : Str)
    (buffer : List Str) {acl : ACL}
    (hts : toSlice s = .ok buffer) (h : PrepareACL s = .ok acl)
    (hstable : ∀ b, buffer = [b] → hasMeta b = true → stripAnchors b = b) :
    PrepareACL acl.RawACL = .ok acl := by
  obtain ⟨buffer2, hts2, hcase⟩ := PrepareACL_ok_cases h
  rw [hts] at hts2
  injection hts2 with h2
  subst h2
  rcases hcase with ⟨_, rfl⟩ | ⟨hw, hcase2⟩
  · show PrepareACL wildcardStr = .ok getFullaccessACL
    decide
  · rcases hcase2 with ⟨b, hb, hm, rfl⟩ | ⟨b, hb, hm, hv, rfl⟩ |
      ⟨b1, b2, bs, hb, hv, rfl⟩
    · subst hb
      obtain ⟨hne, hsp, hc⟩ := toSlice_ok_elem hts b (List.mem_singleton_self b)
      exact PrepareACL_single_noMeta hne hsp hc hm
    · subst hb
      have hst : stripAnchors b = b := hstable b rfl hm
      obtain ⟨hne, hsp, hc⟩ := toSlice_ok_elem hts b (List.mem_singleton_self b)
      have hwb : b ≠ wildcardStr := by
        intro hbe
        exact hw (hbe ▸ List.mem_singleton_self b)
      have := PrepareACL_single_meta hne hsp hc hm hwb hv hst
      rw [hst]
      exact this
    · subst hb
      exact PrepareACL_multi (toSlice_ok_elem hts) hw hv

/-- C4, witness: the amended theorem applied to `min.*, stolon`. -/
theorem claim4_witness :
    PrepareACL
      (({ Fullaccess := false
          Filter := { Label := strL "namespace", Value := strL "min.*|stolon",
                      IsRegexp := true, IsNegative := false }
          RawACL := strL "min.*, stolon" } : ACL).RawACL) =
      .ok { Fullaccess := false
            Filter := { Label := strL "namespace", Value := strL "min.*|stolon",
                        IsRegexp := true, IsNegative := false }
            RawACL := strL "min.*, stolon" } :=
  claim4_amended_idempotent_unless_stripped (strL "min.*, stolon")
    [strL "min.*", strL "stolon"] (by decide) (by decide)
    (by intro b hb hm; simp at hb)

/-- C5: absorption — whenever the parsed element sequence contains the
literal element `.*`, compilation succeeds with the canonical full-access
ACL, regardless of the other elements (they are never validated). -/
theorem claim5_absorption (s : Str) (buffer : List Str)
    (hts : toSlice s = .ok buffer) (hw : wildcardStr ∈ buffer) :
    PrepareACL s = .ok getFullaccessACL := by
  unfold PrepareACL
  rw [hts]
  dsimp only
  rw [if_pos hw]

/-- C5, witness: `min.*, .*, [invalid` contains the element `[invalid`,
which is not a valid regular expression, yet compilation succeeds with the
full-access ACL because `.*` absorbs. -/
theorem claim5_witness :
    PrepareACL (strL "min.*, .*, [invalid") = .ok getFullaccessACL :=
  claim5_absorption (strL "min.*, .*, [invalid")
    [strL "min.*", strL ".*", strL "[invalid"] (by decide) (by decide)

/-- C1, counterexample: with registry `{a ↦ compile "foo"}`, resolving
`["a", "a"]` (assumed roles disabled) recompiles the composite `foo, foo`
into a regexp filter `foo|foo`, while resolving the deduplicated `["a"]`
returns the stored exact-match ACL — duplicates change the resolved ACL. -/
theorem claim1_counterexample :
    getACL regA [strL "a", strL "a"] false =
      .ok { Fullaccess := false
            Filter := { Label := strL "namespace", Value := strL "foo|foo",
                        IsRegexp := true, IsNegative := false }
            RawACL := strL "foo, foo" } ∧
    getACL regA [strL "a"] false =
      .ok { Fullaccess := false
            Filter := { Label := strL "namespace", Value := strL "foo",
                        IsRegexp := false, IsNegative := false }
            RawACL := strL "foo" } ∧
    getACL regA [strL "a", strL "a"] false ≠ getACL regA [strL "a"] false := by
  decide

/-- C1, amended: duplicates are tolerated (resolution is deterministic and
total in them) but in general change the resolved ACL, since duplicate
contributions are repeated in the recompiled composite; the outcome is
unchanged by removing duplicates whenever the role list contains a known
full-access role, in which case both resolutions short-circuit to the same
stored ACL. -/
theorem claim1_amended_dedup_full_access (a : ACLMap) (l : List Str)
    (enabled : Bool)
    (h : ∃ r acl, r ∈ l ∧ findACL a r = some acl ∧ acl.Fullaccess = true) :
    getACL a l enabled = getACL a (dedupRoles [] l) enabled := by
  obtain ⟨r, acl, hr, hf, hfa⟩ := h
  obtain ⟨acl2, hs, _⟩ := scanRoles_fa hr hf hfa
  have hd := scanRoles_dedup []
    (fun s acl3 hmem _ => absurd hmem (List.not_mem_nil s)) hs
  unfold getACL
  rw [hs, hd]

/-- C1, witness: the amended theorem applied to `["admin", "admin"]` over
the registry `{admin ↦ full access}`. -/
theorem claim1_witness :
    getACL regAdm [strL "admin", strL "admin"] false =
      getACL regAdm (dedupRoles [] [strL "admin", strL "admin"]) false :=
  claim1_amended_dedup_full_access regAdm [strL "admin", strL "admin"] false
    ⟨strL "admin", getFullaccessACL, by decide, by decide, by decide⟩

/-- C8: order-independence of the full-access short-circuit — whenever the
role list contains a role stored in the registry with `Fullaccess = true`,
resolution succeeds and the returned ACL has `Fullaccess = true`, whatever
the role's position and the surrounding roles. -/
theorem claim8_full_access_short_circuit (a : ACLMap) (l : List Str)
    (enabled : Bool) (r : Str) (acl : ACL)
    (hr : r ∈ l) (hf : findACL a r = some acl) (hfa : acl.Fullaccess = true) :
    fullaccessOutcome (getACL a l enabled) = true := by
  obtain ⟨acl2, hs, hfa2⟩ := scanRoles_fa hr hf hfa
  unfold getACL
  rw [hs]
  simpa [fullaccessOutcome] using hfa2

/-- C8, witness: the short-circuit theorem applied to
`["unknown", "admin"]` over `{admin ↦ full access}` with assumed roles
enabled. -/
theorem claim8_witness :
    fullaccessOutcome (getACL regAdm [strL "unknown", strL "admin"] true) =
      true :=
  claim8_full_access_short_circuit regAdm [strL "unknown", strL "admin"] true
    (strL "admin") getFullaccessACL (by decide) (by decide) (by decide)

/-- C10: noninterference when assumed roles are disabled — the resolution
outcome depends only on the subsequence of input roles present in the
registry; two role lists with the same known-role subsequence resolve
identically. -/
theorem claim10_noninterference (a : ACLMap) (l1 l2 : List Str)
    (h : l1.filter (fun r => (findACL a r).isSome) =
         l2.filter (fun r => (findACL a r).isSome)) :
    getACL a l1 false = getACL a l2 false := by
  rw [getACL_filter_known a l1, getACL_filter_known a l2, h]

/-- C10, witness: the noninterference theorem applied to
`["a", "x"]` and `["y", "a", "z"]` over the registry `{a ↦ compile "foo"}`. -/
theorem claim10_witness :
    getACL regA [strL "a", strL "x"] false =
      getACL regA [strL "y", strL "a", strL "z"] false :=
  claim10_noninterference regA [strL "a", strL "x"]
    [strL "y", strL "a", strL "z"] (by decide)

/-- C9: when assumed roles are enabled and `.*` is not a registry key, the
single claim role `.*` is passed through as a pattern element and resolves
to the canonical full-access ACL. -/
theorem claim9_assumed_wildcard_full_access (a : ACLMap)
    (h : findACL a wildcardStr = none) :
    getACL a [wildcardStr] true = .ok getFullaccessACL := by
  have hscan : scanRoles a [wildcardStr] = .inr ([], [wildcardStr]) := by
    simp [scanRoles, h]
  have hraw : rolesToRawACL a [wildcardStr] = .ok wildcardStr := by
    simp only [rolesToRawACL, collectRawACLs, h]
    decide
  have hp : PrepareACL wildcardStr = .ok getFullaccessACL := by decide
  unfold getACL
  rw [hscan]
  dsimp only
  simp only [if_true, List.nil_append]
  rw [if_neg (by simp)]
  simp only [h, hraw, hp]

/-- C9, witness: the theorem applied to the empty registry. -/
theorem claim9_witness :
    getACL [] [wildcardStr] true = .ok getFullaccessACL :=
  claim9_assumed_wildcard_full_access [] (by decide)

/-- C6, counterexample: loading the configuration `{team: "a b"}` fails
fast and atomically (empty registry, compile error), but the error text is
`PrepareACL`'s own message about the pattern — it does not contain the
offending role name `team`. -/
theorem claim6_counterexample :
    loadACL [(strL "team", strL "a b")] =
      ([], some (spacesErrMsg (strL "a b"))) ∧
    containsSub (strL "a b") (spacesErrMsg (strL "a b")) = true ∧
    containsSub (strL "team") (spacesErrMsg (strL "a b")) = false := by
  decide

/-- C6, amended: registry load is fail-fast and atomic — the load succeeds
exactly when every entry compiles; on any failure it returns the empty
registry together with the compile error of a failing entry (the
underlying cause, without the role name); on success every role maps to
its compiled ACL. -/
theorem claim6_amended_fail_fast_atomic (cfg : List (Str × Str)) :
    ((loadACL cfg).2 = none ↔ ∀ rp ∈ cfg, isOkRes (PrepareACL rp.2) = true) ∧
    (∀ e, (loadACL cfg).2 = some e →
        (loadACL cfg).1 = [] ∧ ∃ rp ∈ cfg, PrepareACL rp.2 = .err e) ∧
    ((cfg.map Prod.fst).Nodup → (loadACL cfg).2 = none →
        ∀ r p acl, (r, p) ∈ cfg → PrepareACL p = .ok acl →
          findACL (loadACL cfg).1 r = some acl) :=
  ⟨loadACL_none_iff cfg, fun _ he => loadACL_err he,
   fun hnd hnone _ _ _ hmem hp => loadACL_find hnd hnone hmem hp⟩

/-- C6, witness: the failure clause of the amended theorem applied to the
one-entry configuration `{team: "a b"}`. -/
theorem claim6_witness :
    (loadACL [(strL "team", strL "a b")]).1 = [] ∧
    ∃ rp ∈ [(strL "team", strL "a b")],
      PrepareACL rp.2 = .err (spacesErrMsg (strL "a b")) :=
  (claim6_amended_fail_fast_atomic [(strL "team", strL "a b")]).2.1
    (spacesErrMsg (strL "a b")) (by decide)

/-- C7: single-role fast path — when the working list (known roles, plus
the unknown ones exactly when assumed roles are enabled) is a single known
role whose stored ACL is not full-access, resolution returns that stored
ACL unchanged. -/
theorem claim7_single_known_role (a : ACLMap) (l : List Str) (r : Str)
    (acl : ACL) (enabled : Bool)
    (hw : workingRoles a l enabled = [r])
    (hf : findACL a r = some acl) (hfa : acl.Fullaccess = false) :
    getACL a l enabled = .ok acl := by
  have hparts : l.filter (fun x => (findACL a x).isSome) = [r] ∧
      (enabled = true → l.filter (fun x => (findACL a x).isNone) = []) := by
    unfold workingRoles at hw
    cases enabled with
    | false =>
      simp only [Bool.false_eq_true, if_false, List.append_nil] at hw
      exact ⟨hw, fun hct => by cases hct⟩
    | true =>
      simp only [if_true] at hw
      cases hfs : l.filter (fun x => (findACL a x).isSome) with
      | nil =>
        rw [hfs, List.nil_append] at hw
        exfalso
        have hrmem : r ∈ l.filter (fun x => (findACL a x).isNone) := by
          rw [hw]
          exact List.mem_cons_self r []
        have h2 := List.of_mem_filter hrmem
        rw [hf] at h2
        simp at h2
      | cons x xs =>
        rw [hfs, List.cons_append] at hw
        injection hw with h1 h2
        obtain ⟨hxs, hfn⟩ := List.append_eq_nil.mp h2
        subst h1
        subst hxs
        exact ⟨rfl, fun _ => hfn⟩
  obtain ⟨hks, hus⟩ := hparts
  have hnofa : ∀ x acl2, x ∈ l → findACL a x = some acl2 →
      acl2.Fullaccess = false := by
    intro x acl2 hx hfx
    have hmemf : x ∈ l.filter (fun y => (findACL a y).isSome) :=
      List.mem_filter.mpr ⟨hx, by rw [hfx]; rfl⟩
    rw [hks] at hmemf
    have hxr : x = r := List.mem_singleton.mp hmemf
    subst hxr
    rw [hf] at hfx
    injection hfx with h3
    subst h3
    exact hfa
  have hscan := scanRoles_no_fa hnofa
  rw [hks] at hscan
  unfold getACL
  rw [hscan]
  dsimp only
  cases enabled with
  | false =>
    simp only [Bool.false_eq_true, if_false]
    rw [if_neg (by simp)]
    simp only [hf]
  | true =>
    rw [hus rfl]
    simp only [if_true, List.append_nil]
    rw [if_neg (by simp)]
    simp only [hf]

/-- C7, witness: the fast-path theorem applied to the single-role list
`["a"]` over the registry `{a ↦ compile "foo"}`. -/
theorem claim7_witness :
    getACL regA [strL "a"] false =
      .ok { Fullaccess := false
            Filter := { Label := strL "namespace", Value := strL "foo",
                        IsRegexp := false, IsNegative := false }
            RawACL := strL "foo" } :=
  claim7_single_known_role regA [strL "a"] (strL "a")
    { Fullaccess := false
      Filter := { Label := strL "namespace", Value := strL "foo",
                  IsRegexp := false, IsNegative := false }
      RawACL := strL "foo" } false (by decide) (by decide) (by decide)

end Lfgw
